import Mathlib

/- Verification of the demand-driven caching calculator engine found in
   calcs/caching_calculator.py: the CalculationCache (value map, dependency
   graph, evaluation stack), the ParameterProperty / CalculatedProperty
   accessors of CachingCalculatorMeta, and the class-binding validation in
   CachingCalculatorMeta.__new__.

   Python dicts are embedded as association lists viewed through alGet;
   Python values (which may be None) stored in a slot are embedded as
   Option V with Option.none playing the role of Python's None.  A slot is
   present in the dictionary iff the key occurs in the association list. -/

/-- Association-list lookup, modelling Python dict lookup d[k] / k in d. -/
def alGet {K A : Type} [DecidableEq K] : List (K × A) → K → Option A
  | [], _ => none
  | (k', a) :: rest, k => if k' = k then some a else alGet rest k

/-- Association-list update, modelling Python dict assignment d[k] = a. -/
def alInsert {K A : Type} [DecidableEq K] : List (K × A) → K → A → List (K × A)
  | [], k, a => [(k, a)]
  | (k', a') :: rest, k, a =>
    if k' = k then (k, a) :: rest else (k', a') :: alInsert rest k a

/-- Association-list removal, modelling Python dict del d[k]. -/
def alErase {K A : Type} [DecidableEq K] (l : List (K × A)) (k : K) : List (K × A) :=
  l.filter (fun p => decide (p.1 ≠ k))

theorem alGet_alErase {K A : Type} [DecidableEq K] (l : List (K × A)) (k j : K) :
    alGet (alErase l k) j = if j = k then none else alGet l j := by
  induction l with
  | nil =>
    simp only [alErase, List.filter_nil, alGet]
    split <;> rfl
  | cons p rest ih =>
    obtain ⟨k', a⟩ := p
    by_cases hk : k' = k
    · subst hk
      have hdrop : alErase ((k', a) :: rest) k' = alErase rest k' := by
        simp [alErase]
      rw [hdrop, ih]
      by_cases hj : j = k'
      · simp [hj]
      · have hj' : ¬ k' = j := fun h => hj (Eq.symm h)
        simp [hj, alGet, hj']
    · have hkeep : alErase ((k', a) :: rest) k = (k', a) :: alErase rest k := by
        simp [alErase, hk]
      rw [hkeep]
      by_cases hj : k' = j
      · have hjk : ¬ j = k := fun h => hk (hj.trans h)
        simp [alGet, hj, hjk]
      · simp [alGet, hj, ih]

theorem alGet_alInsert {K A : Type} [DecidableEq K] (l : List (K × A)) (k j : K) (a : A) :
    alGet (alInsert l k a) j = if j = k then some a else alGet l j := by
  induction l with
  | nil =>
    simp only [alInsert, alGet]
    by_cases hj : j = k
    · have hkj : k = j := Eq.symm hj
      rw [if_pos hkj, if_pos hj]
    · have hkj : ¬ k = j := fun h => hj (Eq.symm h)
      rw [if_neg hkj, if_neg hj]
  | cons p rest ih =>
    obtain ⟨k', a'⟩ := p
    by_cases hk : k' = k
    · subst hk
      by_cases hj : k' = j
      · have h1 : alInsert ((k', a') :: rest) k' a = (k', a) :: rest := by
          simp [alInsert]
        rw [h1]
        simp only [alGet]
        rw [if_pos hj, if_pos (Eq.symm hj)]
      · have hj' : ¬ j = k' := fun h => hj (Eq.symm h)
        simp [alInsert, alGet, hj, hj']
    · by_cases hj : k' = j
      · have hjk : ¬ j = k := fun h => hk (hj.trans h)
        simp [alInsert, alGet, hk, hj, hjk]
      · simp [alInsert, alGet, hk, hj, ih]

theorem alGet_append {K A : Type} [DecidableEq K] (l1 l2 : List (K × A)) (k : K) :
    alGet (l1 ++ l2) k = match alGet l1 k with | some a => some a | none => alGet l2 k := by
  induction l1 with
  | nil => simp [alGet]
  | cons p rest ih =>
    obtain ⟨k', a⟩ := p
    by_cases hk : k' = k
    · simp [alGet, hk]
    · simp [alGet, hk, ih]

theorem alInsert_absent {K A : Type} [DecidableEq K] (l : List (K × A)) (k : K) (a : A)
    (h : alGet l k = none) : alInsert l k a = l ++ [(k, a)] := by
  induction l with
  | nil => simp [alInsert]
  | cons p rest ih =>
    obtain ⟨k', a'⟩ := p
    by_cases hk : k' = k
    · simp [alGet, hk] at h
    · simp [alGet, hk] at h
      simp [alInsert, hk, ih h]

/-- The CalculationCache of caching_calculator.py: the value cache `_values`,
the dependency graph `_dependency_graph` (a key maps to the set of keys
dependent on it), and the evaluation call stack `_call_stack` (bottom of the
stack first, as in the Python list). -/
structure CalculationCache (K V : Type) where
  values : List (K × Option V)
  dependency_graph : List (K × List K)
  call_stack : List K
deriving DecidableEq

/-- The set of keys recorded as dependent on `k` (Python:
`self._dependency_graph[key]` when present, else nothing to walk). -/
def depsOf {K : Type} [DecidableEq K] (g : List (K × List K)) (k : K) : List K :=
  (alGet g k).getD []

/-- CalculationCache.get: the cached value for key, if any; Python returns
None both when the slot is absent and when the slot holds None. -/
def CalculationCache.get {K V : Type} [DecidableEq K] (c : CalculationCache K V) (k : K) :
    Option V :=
  match alGet c.values k with
  | some v => v
  | none => none

/-- CalculationCache.has_valid: whether there is a cached value for key. -/
def CalculationCache.has_valid {K V : Type} [DecidableEq K] (c : CalculationCache K V) (k : K) :
    Bool :=
  (alGet c.values k).isSome

/-- The depth-first invalidation walk of CalculationCache._invalidate, with an
explicit worklist (the pending recursive calls, depth-first order) and an
explicit recursion budget.  Exactly as in the source, the walk keeps no
visited set: each popped key is deleted from the value map and its dependents
are pushed, whether or not they were handled already.  Budget exhaustion
(result `none`) models the Python recursion that never returns. -/
def invalidateVals {K A : Type} [DecidableEq K] (g : List (K × List K)) :
    Nat → List K → List (K × A) → Option (List (K × A))
  | 0, _, _ => none
  | _ + 1, [], vals => some vals
  | fuel + 1, k :: rest, vals => invalidateVals g fuel (depsOf g k ++ rest) (alErase vals k)

/-- CalculationCache.store: invalidate key and its transitive dependents, then
set the key's slot to the new value. -/
def CalculationCache.store {K V : Type} [DecidableEq K] (c : CalculationCache K V)
    (fuel : Nat) (k : K) (v : Option V) : Option (CalculationCache K V) :=
  match invalidateVals c.dependency_graph fuel [k] c.values with
  | none => none
  | some vals => some { c with values := alInsert vals k v }

/-- CalculationCache.add_dependency: record key1 as dependent on key2 (set
semantics: nothing happens when the edge is already present). -/
def CalculationCache.add_dependency {K V : Type} [DecidableEq K] (c : CalculationCache K V)
    (key1 key2 : K) : CalculationCache K V :=
  let deps := depsOf c.dependency_graph key2
  if key1 ∈ deps then c
  else { c with dependency_graph := alInsert c.dependency_graph key2 (deps ++ [key1]) }

/-- CalculationCache.caller: the top element of the call stack, if any. -/
def CalculationCache.caller {K V : Type} (c : CalculationCache K V) : Option K :=
  c.call_stack.getLast?

/-- CalculationCache.push_caller. -/
def CalculationCache.push_caller {K V : Type} (c : CalculationCache K V) (k : K) :
    CalculationCache K V :=
  { c with call_stack := c.call_stack ++ [k] }

/-- CalculationCache.pop_caller (popping an empty stack leaves it empty). -/
def CalculationCache.pop_caller {K V : Type} (c : CalculationCache K V) :
    CalculationCache K V :=
  { c with call_stack := c.call_stack.dropLast }

/-- Reachability along dependency edges: `Reach g k j` holds iff `j` is `k`
itself or a transitive dependent of `k` — the set of keys the invalidation
walk started at `k` is meant to clear. -/
inductive Reach {K : Type} [DecidableEq K] (g : List (K × List K)) : K → K → Prop
  | refl (k : K) : Reach g k k
  | step (k d j : K) : d ∈ depsOf g k → Reach g d j → Reach g k j

theorem invalidateVals_spec {K A : Type} [DecidableEq K] (g : List (K × List K)) :
    ∀ (fuel : Nat) (wl : List K) (vals vals' : List (K × A)),
      invalidateVals g fuel wl vals = some vals' → ∀ j : K,
        ((∃ x ∈ wl, Reach g x j) → alGet vals' j = none) ∧
        ((¬ ∃ x ∈ wl, Reach g x j) → alGet vals' j = alGet vals j) := by
  intro fuel
  induction fuel with
  | zero => intro wl vals vals' h; simp [invalidateVals] at h
  | succ n ih =>
    intro wl vals vals' h j
    match wl with
    | [] =>
      simp only [invalidateVals, Option.some.injEq] at h
      subst h
      refine ⟨?_, fun _ => rfl⟩
      rintro ⟨x, hx, _⟩
      simp at hx
    | k :: rest =>
      simp only [invalidateVals] at h
      have H := ih (depsOf g k ++ rest) (alErase vals k) vals' h j
      constructor
      · rintro ⟨x, hx, hr⟩
        rcases List.mem_cons.mp hx with rfl | hx'
        · cases hr with
          | refl =>
            by_cases hex : ∃ y ∈ depsOf g j ++ rest, Reach g y j
            · exact H.1 hex
            · rw [H.2 hex, alGet_alErase]
              simp
          | step _ d _ hd hdr =>
            exact H.1 ⟨d, List.mem_append_left _ hd, hdr⟩
        · exact H.1 ⟨x, List.mem_append_right _ hx', hr⟩
      · intro hno
        have hjk : j ≠ k := by
          intro hjk
          exact hno ⟨k, List.mem_cons_self k rest,
            (by rw [hjk]; exact Reach.refl k : Reach g k j)⟩
        have h1 : ¬ ∃ x ∈ depsOf g k ++ rest, Reach g x j := by
          rintro ⟨x, hx, hr⟩
          rcases List.mem_append.mp hx with hx' | hx'
          · exact hno ⟨k, List.mem_cons_self k rest, Reach.step k x j hx' hr⟩
          · exact hno ⟨x, List.mem_cons_of_mem _ hx', hr⟩
        rw [H.2 h1, alGet_alErase, if_neg hjk]

theorem store_spec_aux {K V : Type} [DecidableEq K] (c : CalculationCache K V)
    (fuel : Nat) (k : K) (v : Option V) (c' : CalculationCache K V)
    (h : c.store fuel k v = some c') :
    c'.dependency_graph = c.dependency_graph ∧ c'.call_stack = c.call_stack ∧
    alGet c'.values k = some v ∧
    ∀ j, j ≠ k →
      (Reach c.dependency_graph k j → alGet c'.values j = none) ∧
      (¬ Reach c.dependency_graph k j → alGet c'.values j = alGet c.values j) := by
  simp only [CalculationCache.store] at h
  rcases hinv : invalidateVals c.dependency_graph fuel [k] c.values with _ | vals
  · rw [hinv] at h
    simp at h
  · rw [hinv] at h
    simp only [Option.some.injEq] at h
    subst h
    refine ⟨rfl, rfl, ?_, ?_⟩
    · simp [alGet_alInsert]
    · intro j hj
      have H := invalidateVals_spec c.dependency_graph fuel [k] c.values vals hinv j
      have hmemiff : (∃ x ∈ [k], Reach c.dependency_graph x j) ↔ Reach c.dependency_graph k j := by
        constructor
        · rintro ⟨x, hx, hr⟩
          simp at hx
          rw [hx] at hr
          exact hr
        · intro hr
          exact ⟨k, by simp, hr⟩
      constructor
      · intro hr
        simp only [alGet_alInsert, if_neg hj]
        exact H.1 (hmemiff.mpr hr)
      · intro hr
        simp only [alGet_alInsert, if_neg hj]
        exact H.2 (fun hex => hr (hmemiff.mp hex))

theorem add_dependency_values {K V : Type} [DecidableEq K] (c : CalculationCache K V)
    (key1 key2 : K) : (c.add_dependency key1 key2).values = c.values := by
  simp only [CalculationCache.add_dependency]
  split <;> rfl

theorem add_dependency_stack {K V : Type} [DecidableEq K] (c : CalculationCache K V)
    (key1 key2 : K) : (c.add_dependency key1 key2).call_stack = c.call_stack := by
  simp only [CalculationCache.add_dependency]
  split <;> rfl

theorem add_dependency_mem {K V : Type} [DecidableEq K] (c : CalculationCache K V)
    (key1 key2 : K) :
    key1 ∈ depsOf (c.add_dependency key1 key2).dependency_graph key2 := by
  simp only [CalculationCache.add_dependency]
  by_cases h : key1 ∈ depsOf c.dependency_graph key2
  · rw [if_pos h]
    exact h
  · rw [if_neg h]
    simp only [depsOf, alGet_alInsert, if_pos rfl, Option.getD_some]
    exact List.mem_append_right _ (List.mem_singleton.mpr rfl)

theorem add_dependency_mono {K V : Type} [DecidableEq K] (c : CalculationCache K V)
    (key1 key2 x y : K) (h : y ∈ depsOf c.dependency_graph x) :
    y ∈ depsOf (c.add_dependency key1 key2).dependency_graph x := by
  simp only [CalculationCache.add_dependency]
  by_cases hmem : key1 ∈ depsOf c.dependency_graph key2
  · rw [if_pos hmem]
    exact h
  · rw [if_neg hmem]
    by_cases hx : x = key2
    · subst hx
      simp only [depsOf, alGet_alInsert, if_pos rfl, Option.getD_some]
      exact List.mem_append_left _ h
    · have : ¬ x = key2 := hx
      simp only [depsOf, alGet_alInsert, if_neg this]
      exact h

theorem has_valid_add_dependency {K V : Type} [DecidableEq K] (c : CalculationCache K V)
    (key1 key2 k : K) :
    (c.add_dependency key1 key2).has_valid k = c.has_valid k := by
  simp only [CalculationCache.has_valid, add_dependency_values]

theorem get_add_dependency {K V : Type} [DecidableEq K] (c : CalculationCache K V)
    (key1 key2 k : K) :
    (c.add_dependency key1 key2).get k = c.get k := by
  simp only [CalculationCache.get, add_dependency_values]

/-- Claim C2: store(K, v) clears the value slot of K and of exactly the keys
reachable from K along dependency edges, leaves every other slot unchanged,
installs v in K's slot, and leaves the dependency graph and call stack
untouched (stated for any run of store that terminates within its recursion
budget). -/
theorem store_invalidates_exactly_closure {K V : Type} [DecidableEq K]
    (c c' : CalculationCache K V) (fuel : Nat) (k j : K) (v : Option V)
    (h : c.store fuel k v = some c') :
    c'.dependency_graph = c.dependency_graph ∧ c'.call_stack = c.call_stack ∧
    alGet c'.values k = some v ∧
    (j ≠ k →
      (Reach c.dependency_graph k j → alGet c'.values j = none) ∧
      (¬ Reach c.dependency_graph k j → alGet c'.values j = alGet c.values j)) := by
  have H := store_spec_aux c fuel k v c' h
  exact ⟨H.1, H.2.1, H.2.2.1, fun hj => H.2.2.2 j hj⟩

def storeC0 : CalculationCache String Int :=
  ⟨[("k", some 1), ("j", some 2), ("l", some 3)], [("k", ["j"])], []⟩

def storeC0' : CalculationCache String Int :=
  ⟨[("l", some 3), ("k", some 9)], [("k", ["j"])], []⟩

theorem store_invalidates_exactly_closure_witness :
    (CalculationCache.store storeC0 5 "k" (some 9) = some storeC0') ∧
    (storeC0'.dependency_graph = storeC0.dependency_graph ∧
     storeC0'.call_stack = storeC0.call_stack ∧
     alGet storeC0'.values "k" = some (some 9) ∧
     (("j" : String) ≠ "k" →
       (Reach storeC0.dependency_graph "k" "j" → alGet storeC0'.values "j" = none) ∧
       (¬ Reach storeC0.dependency_graph "k" "j" →
         alGet storeC0'.values "j" = alGet storeC0.values "j"))) :=
  ⟨by decide, store_invalidates_exactly_closure storeC0 storeC0' 5 "k" "j" (some 9) (by decide)⟩

/-- The dependency graph with a self-edge on key x: the configuration the
invalidation walk of the source cannot handle (and which the engine itself
produces when a derivation reads its own cell before the cycle trap fires). -/
def cycGraph : List (String × List String) := [("x", ["x"])]

theorem invalidate_cyc_none :
    ∀ (fuel : Nat) (wl : List String) (vals : List (String × Option Int)),
      "x" ∈ wl → invalidateVals cycGraph fuel wl vals = none := by
  intro fuel
  induction fuel with
  | zero => intro wl vals _; rfl
  | succ n ih =>
    intro wl vals hmem
    match wl with
    | [] => simp at hmem
    | k :: rest =>
      simp only [invalidateVals]
      apply ih
      rcases List.mem_cons.mp hmem with rfl | h'
      · exact List.mem_append_left _ (by decide)
      · exact List.mem_append_right _ h'

/-- Claim C3 (behavior of the code at the failing configuration): the
invalidation walk run by store keeps no visited set, so on a dependency graph
with a cyclic edge relation it never terminates — for every recursion budget
the walk exhausts it.  This refutes the claim that the walk visits each key
at most once and terminates on every graph. -/
theorem store_diverges_on_cyclic_graph :
    ∀ (fuel : Nat) (vals : List (String × Option Int)) (stk : List String) (v : Option Int),
      CalculationCache.store ⟨vals, cycGraph, stk⟩ fuel "x" v = none := by
  intro fuel vals stk v
  simp only [CalculationCache.store]
  rw [invalidate_cyc_none fuel ["x"] vals (by simp)]

/-- Claim C10: writing a parameter performs no change detection — storing the
very value already cached for k still clears the slot of every transitive
dependent of k. -/
theorem store_no_change_detection {K V : Type} [DecidableEq K]
    (c c' : CalculationCache K V) (fuel : Nat) (k j : K) (v : Option V)
    (hold : alGet c.values k = some v)
    (h : c.store fuel k v = some c')
    (hreach : Reach c.dependency_graph k j) (hne : j ≠ k) :
    alGet c'.values j = none :=
  ((store_spec_aux c fuel k v c' h).2.2.2 j hne).1 hreach

def storeC10 : CalculationCache String Int :=
  ⟨[("k", some 9), ("j", some 2)], [("k", ["j"])], []⟩

def storeC10' : CalculationCache String Int :=
  ⟨[("k", some 9)], [("k", ["j"])], []⟩

theorem store_no_change_detection_witness :
    (alGet storeC10.values "k" = some (some 9)) ∧
    (CalculationCache.store storeC10 5 "k" (some 9) = some storeC10') ∧
    Reach storeC10.dependency_graph "k" "j" ∧ ("j" : String) ≠ "k" ∧
    alGet storeC10'.values "j" = none :=
  ⟨by decide, by decide,
   Reach.step "k" "j" "j" (by decide) (Reach.refl "j"), by decide,
   store_no_change_detection storeC10 storeC10' 5 "k" "j" (some 9) (by decide) (by decide)
     (Reach.step "k" "j" "j" (by decide) (Reach.refl "j")) (by decide)⟩

/-- Body of a derivation function (a `calculate_X` method): an arithmetic
expression over cell reads, the shape used by the engine's consumers (for
instance `self.a * 2` or `self.c + self.d`).  A read of a cell goes through
the property accessors and therefore through the cache. -/
inductive Expr (K : Type) where
  | lit : Int → Expr K
  | read : K → Expr K
  | add : Expr K → Expr K → Expr K
  | mul : Expr K → Expr K → Expr K
deriving DecidableEq

/-- The cells an expression reads, in evaluation order. -/
def exprReads {K : Type} : Expr K → List K
  | .lit _ => []
  | .read k => [k]
  | .add a b => exprReads a ++ exprReads b
  | .mul a b => exprReads a ++ exprReads b

/-- Outcome of one cell access or expression evaluation.  `ok` carries the
Python value produced (none being Python's None); `cyclic` is the
InvalidCalculatorSpecification raised on a recursive dependency, carrying the
offending key chain; `typeErr` is the TypeError Python raises when arithmetic
meets None; `fuelOut` models a computation that exhausts its budget (the
Python recursion that never returns). -/
inductive EvalOutcome (K : Type) where
  | ok : Option Int → EvalOutcome K
  | cyclic : List K → EvalOutcome K
  | typeErr : EvalOutcome K
  | fuelOut : EvalOutcome K
deriving DecidableEq

/-- The mutable state an evaluation acts on: the shared CalculationCache plus
the invocation log — the observable record, one entry per completed run of a
derivation function, exactly the instrumentation the source's tests use
(`self.calculated(name)` appends the cell name when a calculate_X body
finishes). -/
structure EvalState (K : Type) where
  cache : CalculationCache K Int
  log : List K
deriving DecidableEq

/-- Work item: a cell access (property __get__) or a derivation-body
expression evaluation. -/
inductive Job (K : Type) where
  | cell : K → Job K
  | expr : Expr K → Job K

/-- One interpreter for both accessors and derivation bodies, structurally
recursive on its budget.

`cell k` with `defs k = none` is ParameterProperty.__get__: record a
dependency of the current caller (top of the evaluation stack) on this key,
then, if the slot is absent, store None as a default, and return the cached
value.

`cell k` with `defs k = some e` is CalculatedProperty.__get__: record the
caller's dependency; return the cached value if the slot is present; raise
the recursive-dependency error if the key is already on the evaluation stack,
appending the offending key to the live stack exactly as the source mutates
it (the exception then propagates with no pop_caller on the way out);
otherwise push the key, evaluate the derivation body, pop, log the completed
invocation, store the result and return it.

`expr e` evaluates a derivation body, reading cells through `cell`. -/
def evalStep {K : Type} [DecidableEq K] (defs : K → Option (Expr K)) :
    Nat → Job K → EvalState K → EvalOutcome K × EvalState K
  | 0, _, s => (.fuelOut, s)
  | fuel + 1, .cell k, s =>
    match defs k with
    | none =>
      let c1 := match s.cache.caller with
        | some clr => s.cache.add_dependency clr k
        | none => s.cache
      if c1.has_valid k then (.ok (c1.get k), { s with cache := c1 })
      else
        match c1.store fuel k none with
        | none => (.fuelOut, { s with cache := c1 })
        | some c2 => (.ok (c2.get k), { s with cache := c2 })
    | some e =>
      let c1 := match s.cache.caller with
        | some clr => s.cache.add_dependency clr k
        | none => s.cache
      if c1.has_valid k then (.ok (c1.get k), { s with cache := c1 })
      else if k ∈ c1.call_stack then
        (.cyclic (c1.call_stack ++ [k]),
         { s with cache := { c1 with call_stack := c1.call_stack ++ [k] } })
      else
        match evalStep defs fuel (.expr e) { cache := c1.push_caller k, log := s.log } with
        | (.ok v, s3) =>
          let c3 := s3.cache.pop_caller
          match c3.store fuel k v with
          | none => (.fuelOut, { cache := c3, log := s3.log ++ [k] })
          | some c4 => (.ok v, { cache := c4, log := s3.log ++ [k] })
        | r => r
  | _ + 1, .expr (.lit n), s => (.ok (some n), s)
  | fuel + 1, .expr (.read k), s => evalStep defs fuel (.cell k) s
  | fuel + 1, .expr (.add a b), s =>
    match evalStep defs fuel (.expr a) s with
    | (.ok va, s1) =>
      match evalStep defs fuel (.expr b) s1 with
      | (.ok vb, s2) =>
        match va, vb with
        | some x, some y => (.ok (some (x + y)), s2)
        | _, _ => (.typeErr, s2)
      | r => r
    | r => r
  | fuel + 1, .expr (.mul a b), s =>
    match evalStep defs fuel (.expr a) s with
    | (.ok va, s1) =>
      match evalStep defs fuel (.expr b) s1 with
      | (.ok vb, s2) =>
        match va, vb with
        | some x, some y => (.ok (some (x * y)), s2)
        | _, _ => (.typeErr, s2)
      | r => r
    | r => r

/-- Reading a cell through its property accessor. -/
def readCell {K : Type} [DecidableEq K] (defs : K → Option (Expr K)) (fuel : Nat)
    (k : K) (s : EvalState K) : EvalOutcome K × EvalState K :=
  evalStep defs fuel (.cell k) s

/-- ParameterProperty.__set__: the write goes straight to store. -/
def setParam {K : Type} [DecidableEq K] (fuel : Nat) (k : K) (v : Option Int)
    (s : EvalState K) : Option (EvalState K) :=
  match s.cache.store fuel k v with
  | none => none
  | some c => some { s with cache := c }

/-- The empty shared state: no cached values, no edges, no running
evaluation, no invocations logged. -/
def emptyState : EvalState String := ⟨⟨[], [], []⟩, []⟩

/-- The literal scenario of the spec and of test_simple_example: one owner,
parameters a and b, computed cells c = a * 2, d = b * 2, e = c + d. -/
def exDefs : String → Option (Expr String)
  | "c" => some (.mul (.read "a") (.lit 2))
  | "d" => some (.mul (.read "b") (.lit 2))
  | "e" => some (.add (.read "c") (.read "d"))
  | _ => none

/-- Set a := 5 and b := 7, then read e. -/
def exPhase1 : Option (EvalOutcome String × EvalState String) :=
  match setParam 20 "a" (some 5) emptyState with
  | none => none
  | some s1 =>
    match setParam 20 "b" (some 7) s1 with
    | none => none
    | some s2 => some (readCell exDefs 20 "e" s2)

/-- Then set b := 3 and read e again. -/
def exPhase2 : Option (EvalOutcome String × EvalState String) :=
  match exPhase1 with
  | none => none
  | some (_, s) =>
    match setParam 20 "b" (some 3) s with
    | none => none
    | some s' => some (readCell exDefs 20 "e" s')

/-- Claim C1 (literal scenario): after a := 5 and b := 7, reading e yields 24
and the derivations complete in order c, d, e, once each; after b := 3,
reading e yields 16 and only d and e run again (the log grows by exactly
["d", "e"]). -/
theorem literal_scenario_eval :
    exPhase1.map (fun p => (p.1, p.2.log)) = some (.ok (some 24), ["c", "d", "e"]) ∧
    exPhase2.map (fun p => (p.1, p.2.log)) =
      some (.ok (some 16), ["c", "d", "e", "d", "e"]) :=
  ⟨by decide, by decide⟩

/-- The directly self-referential derivation: calculate_x reads self.x. -/
def cycDefs : String → Option (Expr String)
  | "x" => some (.read "x")
  | _ => none

/-- A state in which key x is already on the evaluation stack. -/
def cycS1 : EvalState String := ⟨⟨[], [], ["x"]⟩, []⟩

/-- Claim C4, part refuted: reading the self-referential cell x from a fresh
store raises the cyclic error with payload ["x", "x"], but afterwards the
evaluation stack still holds both the frame pushed by the failed evaluation
and the appended offending key — it is not restored to the empty stack — and
the self-edge x → x recorded during the failed evaluation persists in the
dependency graph. -/
theorem cycle_error_not_restored_cex :
    (readCell cycDefs 10 "x" emptyState).1 = .cyclic ["x", "x"] ∧
    (readCell cycDefs 10 "x" emptyState).2.cache.call_stack = ["x", "x"] ∧
    (readCell cycDefs 10 "x" emptyState).2.cache.call_stack ≠ emptyState.cache.call_stack ∧
    "x" ∈ depsOf (readCell cycDefs 10 "x" emptyState).2.cache.dependency_graph "x" := by
  decide

/-- Claim C4 as amended: reading a computed cell whose key is already on the
evaluation stack raises the cyclic-dependency error whose payload is the
ordered chain of stack keys with the offending key appended; the cached
values and the invocation log are untouched, but the evaluation stack is NOT
restored — it is left holding the old stack plus the appended offending key,
so later evaluations do not behave as if the failed one never started. -/
theorem cycle_error_payload_and_state {K : Type} [DecidableEq K]
    (defs : K → Option (Expr K)) (fuel : Nat) (k : K) (e : Expr K) (s : EvalState K)
    (h : defs k = some e) (hv : s.cache.has_valid k = false)
    (hs : k ∈ s.cache.call_stack) :
    (readCell defs (fuel + 1) k s).1 = .cyclic (s.cache.call_stack ++ [k]) ∧
    (readCell defs (fuel + 1) k s).2.cache.call_stack = s.cache.call_stack ++ [k] ∧
    (readCell defs (fuel + 1) k s).2.cache.values = s.cache.values ∧
    (readCell defs (fuel + 1) k s).2.log = s.log := by
  simp only [readCell, evalStep, h]
  rcases hc : s.cache.caller with _ | clr <;>
    simp [hc, hv, has_valid_add_dependency, add_dependency_stack, add_dependency_values, hs]

theorem cycle_error_payload_and_state_witness :
    (cycDefs "x" = some (.read "x")) ∧ (cycS1.cache.has_valid "x" = false) ∧
    ("x" ∈ cycS1.cache.call_stack) ∧
    ((readCell cycDefs 5 "x" cycS1).1 = .cyclic ["x", "x"] ∧
     (readCell cycDefs 5 "x" cycS1).2.cache.call_stack = ["x", "x"] ∧
     (readCell cycDefs 5 "x" cycS1).2.cache.values = [] ∧
     (readCell cycDefs 5 "x" cycS1).2.log = []) :=
  ⟨rfl, by decide, by decide,
   cycle_error_payload_and_state cycDefs 4 "x" (.read "x") cycS1 rfl (by decide) (by decide)⟩

theorem push_caller_graph {K V : Type} (c : CalculationCache K V) (k : K) :
    (c.push_caller k).dependency_graph = c.dependency_graph := rfl

theorem push_caller_values {K V : Type} (c : CalculationCache K V) (k : K) :
    (c.push_caller k).values = c.values := rfl

theorem push_caller_stack {K V : Type} (c : CalculationCache K V) (k : K) :
    (c.push_caller k).call_stack = c.call_stack ++ [k] := rfl

theorem pop_caller_graph {K V : Type} (c : CalculationCache K V) :
    c.pop_caller.dependency_graph = c.dependency_graph := rfl

theorem caller_push {K V : Type} [DecidableEq K] (c : CalculationCache K V) (k : K) :
    (c.push_caller k).caller = some k := by
  simp only [CalculationCache.caller, push_caller_stack]
  exact List.getLast?_concat _


theorem evalStep_stack_ok {K : Type} [DecidableEq K] (defs : K → Option (Expr K)) :
    ∀ (fuel : Nat) (t : Job K) (s : EvalState K) (v : Option Int) (s' : EvalState K),
      evalStep defs fuel t s = (.ok v, s') → s'.cache.call_stack = s.cache.call_stack := by
  intro fuel
  induction fuel with
  | zero =>
    intro t s v s' h
    simp [evalStep] at h
  | succ n ih =>
    intro t s v s' h
    match t with
    | .cell k =>
      simp only [evalStep] at h
      rcases hd : defs k with _ | e <;> rw [hd] at h <;>
        rcases hc : s.cache.caller with _ | clr <;> simp only [hc] at h
      case none.none =>
        by_cases hv : s.cache.has_valid k
        · rw [if_pos hv] at h
          simp at h
          obtain ⟨-, h2⟩ := h
          subst h2
          rfl
        · rw [if_neg hv] at h
          rcases hst : CalculationCache.store s.cache n k none with _ | c2 <;>
            simp [hst] at h
          obtain ⟨-, h2⟩ := h
          subst h2
          exact (store_spec_aux _ _ _ _ _ hst).2.1
      case none.some =>
        by_cases hv : (s.cache.add_dependency clr k).has_valid k
        · rw [if_pos hv] at h
          simp at h
          obtain ⟨-, h2⟩ := h
          subst h2
          exact add_dependency_stack _ _ _
        · rw [if_neg hv] at h
          rcases hst : CalculationCache.store (s.cache.add_dependency clr k) n k none
            with _ | c2 <;> simp [hst] at h
          obtain ⟨-, h2⟩ := h
          subst h2
          rw [(store_spec_aux _ _ _ _ _ hst).2.1]
          exact add_dependency_stack _ _ _
      case some.none =>
        by_cases hv : s.cache.has_valid k
        · rw [if_pos hv] at h
          simp at h
          obtain ⟨-, h2⟩ := h
          subst h2
          rfl
        · rw [if_neg hv] at h
          by_cases hmem : k ∈ s.cache.call_stack
          · rw [if_pos hmem] at h
            simp at h
          · rw [if_neg hmem] at h
            rcases hin : evalStep defs n (.expr e) ⟨s.cache.push_caller k, s.log⟩
              with ⟨o3, s3⟩
            rw [hin] at h
            cases o3 with
            | ok v3 =>
              rcases hst : (s3.cache.pop_caller).store n k v3 with _ | c4 <;>
                simp [hst] at h
              obtain ⟨-, h2⟩ := h
              subst h2
              show c4.call_stack = s.cache.call_stack
              have hs3 := ih _ _ _ _ hin
              simp only [push_caller_stack] at hs3
              rw [(store_spec_aux _ _ _ _ _ hst).2.1]
              simp only [CalculationCache.pop_caller, hs3]
              exact List.dropLast_concat
            | cyclic l => simp at h
            | typeErr => simp at h
            | fuelOut => simp at h
      case some.some =>
        by_cases hv : (s.cache.add_dependency clr k).has_valid k
        · rw [if_pos hv] at h
          simp at h
          obtain ⟨-, h2⟩ := h
          subst h2
          exact add_dependency_stack _ _ _
        · rw [if_neg hv] at h
          by_cases hmem : k ∈ (s.cache.add_dependency clr k).call_stack
          · rw [if_pos hmem] at h
            simp at h
          · rw [if_neg hmem] at h
            rcases hin : evalStep defs n (.expr e)
              ⟨(s.cache.add_dependency clr k).push_caller k, s.log⟩ with ⟨o3, s3⟩
            rw [hin] at h
            cases o3 with
            | ok v3 =>
              rcases hst : (s3.cache.pop_caller).store n k v3 with _ | c4 <;>
                simp [hst] at h
              obtain ⟨-, h2⟩ := h
              subst h2
              show c4.call_stack = s.cache.call_stack
              have hs3 := ih _ _ _ _ hin
              simp only [push_caller_stack] at hs3
              rw [(store_spec_aux _ _ _ _ _ hst).2.1]
              simp only [CalculationCache.pop_caller, hs3]
              rw [List.dropLast_concat]
              exact add_dependency_stack _ _ _
            | cyclic l => simp at h
            | typeErr => simp at h
            | fuelOut => simp at h
    | .expr (.lit m) =>
      simp only [evalStep] at h
      simp at h
      obtain ⟨-, h2⟩ := h
      subst h2
      rfl
    | .expr (.read k) =>
      simp only [evalStep] at h
      exact ih _ _ _ _ h
    | .expr (.add a b) =>
      simp only [evalStep] at h
      rcases h1 : evalStep defs n (.expr a) s with ⟨oa, s1⟩
      rw [h1] at h
      cases oa with
      | ok va =>
        rcases h2 : evalStep defs n (.expr b) s1 with ⟨ob, s2⟩
        have hstep : s1.cache.call_stack = s.cache.call_stack := ih _ _ _ _ h1
        cases ob with
        | ok vb =>
          have hstep2 : s2.cache.call_stack = s1.cache.call_stack := ih _ _ _ _ h2
          cases va <;> cases vb <;> simp [h2] at h <;>
            (obtain ⟨-, h3⟩ := h; subst h3; rw [hstep2, hstep])
        | cyclic l => simp [h2] at h
        | typeErr => simp [h2] at h
        | fuelOut => simp [h2] at h
      | cyclic l => simp at h
      | typeErr => simp at h
      | fuelOut => simp at h
    | .expr (.mul a b) =>
      simp only [evalStep] at h
      rcases h1 : evalStep defs n (.expr a) s with ⟨oa, s1⟩
      rw [h1] at h
      cases oa with
      | ok va =>
        rcases h2 : evalStep defs n (.expr b) s1 with ⟨ob, s2⟩
        have hstep : s1.cache.call_stack = s.cache.call_stack := ih _ _ _ _ h1
        cases ob with
        | ok vb =>
          have hstep2 : s2.cache.call_stack = s1.cache.call_stack := ih _ _ _ _ h2
          cases va <;> cases vb <;> simp [h2] at h <;>
            (obtain ⟨-, h3⟩ := h; subst h3; rw [hstep2, hstep])
        | cyclic l => simp [h2] at h
        | typeErr => simp [h2] at h
        | fuelOut => simp [h2] at h
      | cyclic l => simp at h
      | typeErr => simp at h
      | fuelOut => simp at h

theorem evalStep_graph_mono {K : Type} [DecidableEq K] (defs : K → Option (Expr K)) :
    ∀ (fuel : Nat) (t : Job K) (s : EvalState K) (x y : K),
      y ∈ depsOf s.cache.dependency_graph x →
      y ∈ depsOf (evalStep defs fuel t s).2.cache.dependency_graph x := by
  intro fuel
  induction fuel with
  | zero =>
    intro t s x y hy
    simpa [evalStep] using hy
  | succ n ih =>
    intro t s x y hy
    match t with
    | .cell k =>
      simp only [evalStep]
      rcases hd : defs k with _ | e <;> rcases hc : s.cache.caller with _ | clr <;>
        simp only [hd, hc]
      case none.none =>
        by_cases hv : s.cache.has_valid k
        · rw [if_pos hv]
          exact hy
        · rw [if_neg hv]
          rcases hst : CalculationCache.store s.cache n k none with _ | c2 <;> simp [hst]
          · exact hy
          · rw [(store_spec_aux _ _ _ _ _ hst).1]
            exact hy
      case none.some =>
        have hy1 : y ∈ depsOf (s.cache.add_dependency clr k).dependency_graph x :=
          add_dependency_mono _ _ _ _ _ hy
        by_cases hv : (s.cache.add_dependency clr k).has_valid k
        · rw [if_pos hv]
          exact hy1
        · rw [if_neg hv]
          rcases hst : CalculationCache.store (s.cache.add_dependency clr k) n k none
            with _ | c2 <;> simp [hst]
          · exact hy1
          · rw [(store_spec_aux _ _ _ _ _ hst).1]
            exact hy1
      case some.none =>
        by_cases hv : s.cache.has_valid k
        · rw [if_pos hv]
          exact hy
        · rw [if_neg hv]
          by_cases hmem : k ∈ s.cache.call_stack
          · rw [if_pos hmem]
            exact hy
          · rw [if_neg hmem]
            rcases hin : evalStep defs n (.expr e)
              { cache := s.cache.push_caller k, log := s.log } with ⟨o3, s3⟩
            have hm := ih (.expr e) { cache := s.cache.push_caller k, log := s.log } x y hy
            rw [hin] at hm
            cases o3 with
            | ok v3 =>
              rcases hst : (s3.cache.pop_caller).store n k v3 with _ | c4 <;> simp [hst]
              · exact hm
              · rw [(store_spec_aux _ _ _ _ _ hst).1, pop_caller_graph]
                exact hm
            | cyclic l => exact hm
            | typeErr => exact hm
            | fuelOut => exact hm
      case some.some =>
        have hy1 : y ∈ depsOf (s.cache.add_dependency clr k).dependency_graph x :=
          add_dependency_mono _ _ _ _ _ hy
        by_cases hv : (s.cache.add_dependency clr k).has_valid k
        · rw [if_pos hv]
          exact hy1
        · rw [if_neg hv]
          by_cases hmem : k ∈ (s.cache.add_dependency clr k).call_stack
          · rw [if_pos hmem]
            exact hy1
          · rw [if_neg hmem]
            rcases hin : evalStep defs n (.expr e)
              { cache := (s.cache.add_dependency clr k).push_caller k, log := s.log }
              with ⟨o3, s3⟩
            have hm := ih (.expr e)
              { cache := (s.cache.add_dependency clr k).push_caller k, log := s.log } x y hy1
            rw [hin] at hm
            cases o3 with
            | ok v3 =>
              rcases hst : (s3.cache.pop_caller).store n k v3 with _ | c4 <;> simp [hst]
              · exact hm
              · rw [(store_spec_aux _ _ _ _ _ hst).1, pop_caller_graph]
                exact hm
            | cyclic l => exact hm
            | typeErr => exact hm
            | fuelOut => exact hm
    | .expr (.lit m) =>
      simpa [evalStep] using hy
    | .expr (.read k) =>
      simp only [evalStep]
      exact ih (.cell k) s x y hy
    | .expr (.add a b) =>
      simp only [evalStep]
      rcases h1 : evalStep defs n (.expr a) s with ⟨oa, s1⟩
      have m1 := ih (.expr a) s x y hy
      rw [h1] at m1
      cases oa with
      | ok va =>
        rcases h2 : evalStep defs n (.expr b) s1 with ⟨ob, s2⟩
        have m2 := ih (.expr b) s1 x y m1
        rw [h2] at m2
        cases ob with
        | ok vb => cases va <;> cases vb <;> simp [h2] <;> exact m2
        | cyclic l => simp [h2]; exact m2
        | typeErr => simp [h2]; exact m2
        | fuelOut => simp [h2]; exact m2
      | cyclic l => exact m1
      | typeErr => exact m1
      | fuelOut => exact m1
    | .expr (.mul a b) =>
      simp only [evalStep]
      rcases h1 : evalStep defs n (.expr a) s with ⟨oa, s1⟩
      have m1 := ih (.expr a) s x y hy
      rw [h1] at m1
      cases oa with
      | ok va =>
        rcases h2 : evalStep defs n (.expr b) s1 with ⟨ob, s2⟩
        have m2 := ih (.expr b) s1 x y m1
        rw [h2] at m2
        cases ob with
        | ok vb => cases va <;> cases vb <;> simp [h2] <;> exact m2
        | cyclic l => simp [h2]; exact m2
        | typeErr => simp [h2]; exact m2
        | fuelOut => simp [h2]; exact m2
      | cyclic l => exact m1
      | typeErr => exact m1
      | fuelOut => exact m1

theorem evalStep_entry_edge {K : Type} [DecidableEq K] (defs : K → Option (Expr K))
    (fuel : Nat) (k clr : K) (s : EvalState K) (hc : s.cache.caller = some clr) :
    clr ∈ depsOf ((evalStep defs (fuel + 1) (Job.cell k) s).2).cache.dependency_graph k := by
  have hedge : clr ∈ depsOf (s.cache.add_dependency clr k).dependency_graph k :=
    add_dependency_mem _ _ _
  simp only [evalStep]
  rcases hd : defs k with _ | e <;> simp only [hd, hc]
  case none =>
    by_cases hv : (s.cache.add_dependency clr k).has_valid k
    · rw [if_pos hv]
      exact hedge
    · rw [if_neg hv]
      rcases hst : CalculationCache.store (s.cache.add_dependency clr k) fuel k none
        with _ | c2 <;> simp [hst]
      · exact hedge
      · rw [(store_spec_aux _ _ _ _ _ hst).1]
        exact hedge
  case some =>
    by_cases hv : (s.cache.add_dependency clr k).has_valid k
    · rw [if_pos hv]
      exact hedge
    · rw [if_neg hv]
      by_cases hmem : k ∈ (s.cache.add_dependency clr k).call_stack
      · rw [if_pos hmem]
        exact hedge
      · rw [if_neg hmem]
        rcases hin : evalStep defs fuel (.expr e)
          { cache := (s.cache.add_dependency clr k).push_caller k, log := s.log }
          with ⟨o3, s3⟩
        have hm := evalStep_graph_mono defs fuel (.expr e)
          { cache := (s.cache.add_dependency clr k).push_caller k, log := s.log } k clr hedge
        rw [hin] at hm
        cases o3 with
        | ok v3 =>
          rcases hst : (s3.cache.pop_caller).store fuel k v3 with _ | c4 <;> simp [hst]
          · exact hm
          · rw [(store_spec_aux _ _ _ _ _ hst).1, pop_caller_graph]
            exact hm
        | cyclic l => exact hm
        | typeErr => exact hm
        | fuelOut => exact hm

theorem evalStep_reads_edges {K : Type} [DecidableEq K] (defs : K → Option (Expr K)) :
    ∀ (e : Expr K) (fuel : Nat) (kk : K) (s s' : EvalState K) (v : Option Int),
      s.cache.caller = some kk →
      evalStep defs fuel (Job.expr e) s = (.ok v, s') →
      ∀ r ∈ exprReads e, kk ∈ depsOf s'.cache.dependency_graph r := by
  intro e
  induction e with
  | lit m =>
    intro fuel kk s s' v _ _ r hr
    simp [exprReads] at hr
  | read k =>
    intro fuel kk s s' v hc h r hr
    simp only [exprReads, List.mem_singleton] at hr
    subst hr
    match fuel with
    | 0 => simp [evalStep] at h
    | n + 1 =>
      simp only [evalStep] at h
      match n, h with
      | 0, h => simp [evalStep] at h
      | m + 1, h =>
        have he := evalStep_entry_edge defs m r kk s hc
        rw [h] at he
        exact he
  | add a b iha ihb =>
    intro fuel kk s s' v hc h r hr
    match fuel with
    | 0 => simp [evalStep] at h
    | n + 1 =>
      simp only [evalStep] at h
      rcases h1 : evalStep defs n (.expr a) s with ⟨oa, s1⟩
      rw [h1] at h
      cases oa with
      | ok va =>
        rcases h2 : evalStep defs n (.expr b) s1 with ⟨ob, s2⟩
        have hstk : s1.cache.call_stack = s.cache.call_stack :=
          evalStep_stack_ok defs n _ _ _ _ h1
        have hc1 : s1.cache.caller = some kk := by
          simp only [CalculationCache.caller] at hc ⊢
          rw [hstk]
          exact hc
        cases ob with
        | ok vb =>
          cases va <;> cases vb <;> simp [h2] at h
          obtain ⟨-, h3⟩ := h
          subst h3
          simp only [exprReads, List.mem_append] at hr
          rcases hr with hra | hrb
          · have ha := iha n kk s s1 _ hc h1 r hra
            have hmono := evalStep_graph_mono defs n (.expr b) s1 r kk ha
            rw [h2] at hmono
            exact hmono
          · exact ihb n kk s1 s2 _ hc1 h2 r hrb
        | cyclic l => simp [h2] at h
        | typeErr => simp [h2] at h
        | fuelOut => simp [h2] at h
      | cyclic l => simp at h
      | typeErr => simp at h
      | fuelOut => simp at h
  | mul a b iha ihb =>
    intro fuel kk s s' v hc h r hr
    match fuel with
    | 0 => simp [evalStep] at h
    | n + 1 =>
      simp only [evalStep] at h
      rcases h1 : evalStep defs n (.expr a) s with ⟨oa, s1⟩
      rw [h1] at h
      cases oa with
      | ok va =>
        rcases h2 : evalStep defs n (.expr b) s1 with ⟨ob, s2⟩
        have hstk : s1.cache.call_stack = s.cache.call_stack :=
          evalStep_stack_ok defs n _ _ _ _ h1
        have hc1 : s1.cache.caller = some kk := by
          simp only [CalculationCache.caller] at hc ⊢
          rw [hstk]
          exact hc
        cases ob with
        | ok vb =>
          cases va <;> cases vb <;> simp [h2] at h
          obtain ⟨-, h3⟩ := h
          subst h3
          simp only [exprReads, List.mem_append] at hr
          rcases hr with hra | hrb
          · have ha := iha n kk s s1 _ hc h1 r hra
            have hmono := evalStep_graph_mono defs n (.expr b) s1 r kk ha
            rw [h2] at hmono
            exact hmono
          · exact ihb n kk s1 s2 _ hc1 h2 r hrb
        | cyclic l => simp [h2] at h
        | typeErr => simp [h2] at h
        | fuelOut => simp [h2] at h
      | cyclic l => simp at h
      | typeErr => simp at h
      | fuelOut => simp at h

/-- Claim C5: dependency edges are discovered purely dynamically.  (1) When a
computed cell k is evaluated from scratch and its derivation body succeeds,
every cell r the body reads ends up with the edge r → k in the dependency
graph, with no static declaration anywhere.  (2) Every cell read performed
while the evaluation stack is non-empty records an edge attributed to the
top-of-stack key.  (3) A parameter read performed while the stack is empty
records no edge, and (4) a parameter write records no edge (and invokes no
derivation). -/
theorem dynamic_dependency_capture {K : Type} [DecidableEq K]
    (defs : K → Option (Expr K)) (fuel : Nat) (k clr r : K) (e : Expr K)
    (s s' t' : EvalState K) (o : EvalOutcome K) (v w : Option Int) :
    (defs k = some e → s.cache.has_valid k = false →
      readCell defs (fuel + 1) k s = (.ok v, s') → r ∈ exprReads e →
      k ∈ depsOf s'.cache.dependency_graph r) ∧
    (s.cache.caller = some clr → readCell defs (fuel + 1) k s = (o, s') →
      clr ∈ depsOf s'.cache.dependency_graph k) ∧
    (s.cache.caller = none → defs k = none → readCell defs (fuel + 1) k s = (o, s') →
      s'.cache.dependency_graph = s.cache.dependency_graph) ∧
    (setParam fuel k w s = some t' →
      t'.cache.dependency_graph = s.cache.dependency_graph ∧ t'.log = s.log) := by
  refine ⟨?_, ?_, ?_, ?_⟩
  · intro hd hv h3 hr
    simp only [readCell, evalStep, hd] at h3
    rcases hc : s.cache.caller with _ | clr0 <;> simp only [hc] at h3 <;>
      [(have hv1 : ¬ s.cache.has_valid k = true := by simp [hv]);
       (have hv1 : ¬ (s.cache.add_dependency clr0 k).has_valid k = true := by
          simp [has_valid_add_dependency, hv])] <;>
      rw [if_neg hv1] at h3
    case none =>
      by_cases hmem : k ∈ s.cache.call_stack
      · rw [if_pos hmem] at h3
        simp at h3
      · rw [if_neg hmem] at h3
        rcases hin : evalStep defs fuel (.expr e)
          { cache := s.cache.push_caller k, log := s.log } with ⟨o3, s3⟩
        rw [hin] at h3
        cases o3 with
        | ok v3 =>
          rcases hst : (s3.cache.pop_caller).store fuel k v3 with _ | c4 <;>
            simp [hst] at h3
          obtain ⟨-, h5⟩ := h3
          subst h5
          show k ∈ depsOf c4.dependency_graph r
          have hedges := evalStep_reads_edges defs e fuel k
            { cache := s.cache.push_caller k, log := s.log } s3 v3
            (caller_push _ _) hin r hr
          rw [(store_spec_aux _ _ _ _ _ hst).1, pop_caller_graph]
          exact hedges
        | cyclic l => simp at h3
        | typeErr => simp at h3
        | fuelOut => simp at h3
    case some =>
      by_cases hmem : k ∈ (s.cache.add_dependency clr0 k).call_stack
      · rw [if_pos hmem] at h3
        simp at h3
      · rw [if_neg hmem] at h3
        rcases hin : evalStep defs fuel (.expr e)
          { cache := (s.cache.add_dependency clr0 k).push_caller k, log := s.log }
          with ⟨o3, s3⟩
        rw [hin] at h3
        cases o3 with
        | ok v3 =>
          rcases hst : (s3.cache.pop_caller).store fuel k v3 with _ | c4 <;>
            simp [hst] at h3
          obtain ⟨-, h5⟩ := h3
          subst h5
          show k ∈ depsOf c4.dependency_graph r
          have hedges := evalStep_reads_edges defs e fuel k
            { cache := (s.cache.add_dependency clr0 k).push_caller k, log := s.log }
            s3 v3 (caller_push _ _) hin r hr
          rw [(store_spec_aux _ _ _ _ _ hst).1, pop_caller_graph]
          exact hedges
        | cyclic l => simp at h3
        | typeErr => simp at h3
        | fuelOut => simp at h3
  · intro hc h3
    have he := evalStep_entry_edge defs fuel k clr s hc
    rw [show evalStep defs (fuel + 1) (Job.cell k) s = (o, s') from h3] at he
    exact he
  · intro hc hd h3
    simp only [readCell, evalStep, hd, hc] at h3
    by_cases hv : s.cache.has_valid k
    · rw [if_pos hv] at h3
      simp at h3
      obtain ⟨-, h5⟩ := h3
      subst h5
      rfl
    · rw [if_neg hv] at h3
      rcases hst : CalculationCache.store s.cache fuel k none with _ | c2 <;>
        simp [hst] at h3
      · obtain ⟨-, h5⟩ := h3
        subst h5
        rfl
      · obtain ⟨-, h5⟩ := h3
        subst h5
        exact (store_spec_aux _ _ _ _ _ hst).1
  · intro h4
    simp only [setParam] at h4
    rcases hst : CalculationCache.store s.cache fuel k w with _ | c2 <;>
      rw [hst] at h4 <;> simp at h4
    subst h4
    exact ⟨(store_spec_aux _ _ _ _ _ hst).1, rfl⟩

def capS1 : EvalState String := ⟨⟨[("a", some 5)], [], []⟩, []⟩

def capS1' : EvalState String :=
  ⟨⟨[("a", some 5), ("c", some 10)], [("a", ["c"])], []⟩, ["c"]⟩

def capDefs2 : String → Option (Expr String) := fun _ => none

def capS2 : EvalState String := ⟨⟨[("p", some 1)], [], ["q"]⟩, []⟩

def capS2' : EvalState String := ⟨⟨[("p", some 1)], [("p", ["q"])], ["q"]⟩, []⟩

def capS3' : EvalState String := ⟨⟨[("a", none)], [], []⟩, []⟩

def capS4' : EvalState String := ⟨⟨[("b", some 7)], [], []⟩, []⟩

theorem dynamic_dependency_capture_witness :
    ("c" ∈ depsOf capS1'.cache.dependency_graph "a") ∧
    ("q" ∈ depsOf capS2'.cache.dependency_graph "p") ∧
    (capS3'.cache.dependency_graph = emptyState.cache.dependency_graph) ∧
    (capS4'.cache.dependency_graph = emptyState.cache.dependency_graph ∧
     capS4'.log = emptyState.log) :=
  ⟨(dynamic_dependency_capture exDefs 9 "c" "z" "a" (.mul (.read "a") (.lit 2))
      capS1 capS1' capS1' (.ok (some 10)) (some 10) none).1
      rfl (by decide) (by decide) (by decide),
   (dynamic_dependency_capture capDefs2 9 "p" "q" "p" (.lit 0)
      capS2 capS2' capS2' (.ok (some 1)) none none).2.1 (by decide) (by decide),
   (dynamic_dependency_capture exDefs 9 "a" "z" "a" (.lit 0)
      emptyState capS3' capS3' (.ok none) none none).2.2.1 (by decide) rfl (by decide),
   (dynamic_dependency_capture exDefs 9 "b" "z" "a" (.lit 0)
      emptyState capS3' capS4' (.ok none) none (some 7)).2.2.2 (by decide)⟩

theorem get_of_alGet {K V : Type} [DecidableEq K] (c : CalculationCache K V) (k : K)
    (w : Option V) (h : alGet c.values k = some w) : c.get k = w := by
  simp [CalculationCache.get, h]

theorem get_of_absent {K V : Type} [DecidableEq K] (c : CalculationCache K V) (k : K)
    (h : alGet c.values k = none) : c.get k = none := by
  simp [CalculationCache.get, h]

theorem has_valid_true_of {K V : Type} [DecidableEq K] (c : CalculationCache K V) (k : K)
    (w : Option V) (h : alGet c.values k = some w) : c.has_valid k = true := by
  simp [CalculationCache.has_valid, h]

theorem has_valid_false_of {K V : Type} [DecidableEq K] (c : CalculationCache K V) (k : K)
    (h : alGet c.values k = none) : c.has_valid k = false := by
  simp [CalculationCache.has_valid, h]

theorem readCell_hit {K : Type} [DecidableEq K] (defs : K → Option (Expr K))
    (fuel : Nat) (k : K) (e : Expr K) (s : EvalState K)
    (h : defs k = some e) (hv : s.cache.has_valid k = true) :
    (readCell defs (fuel + 1) k s).1 = .ok (s.cache.get k) ∧
    (readCell defs (fuel + 1) k s).2.cache.values = s.cache.values ∧
    (readCell defs (fuel + 1) k s).2.cache.call_stack = s.cache.call_stack ∧
    (readCell defs (fuel + 1) k s).2.log = s.log := by
  simp only [readCell, evalStep, h]
  rcases hc : s.cache.caller with _ | clr <;> simp only [hc]
  · rw [if_pos hv]
    exact ⟨rfl, rfl, rfl, rfl⟩
  · have hv1 : (s.cache.add_dependency clr k).has_valid k = true := by
      rw [has_valid_add_dependency]
      exact hv
    rw [if_pos hv1]
    refine ⟨?_, add_dependency_values _ _ _, add_dependency_stack _ _ _, rfl⟩
    show EvalOutcome.ok ((s.cache.add_dependency clr k).get k) = .ok (s.cache.get k)
    rw [get_add_dependency]

theorem readCell_param_hit {K : Type} [DecidableEq K] (defs : K → Option (Expr K))
    (fuel : Nat) (k : K) (s : EvalState K)
    (h : defs k = none) (hv : s.cache.has_valid k = true) :
    (readCell defs (fuel + 1) k s).1 = .ok (s.cache.get k) ∧
    (readCell defs (fuel + 1) k s).2.cache.values = s.cache.values ∧
    (readCell defs (fuel + 1) k s).2.log = s.log := by
  simp only [readCell, evalStep, h]
  rcases hc : s.cache.caller with _ | clr <;> simp only [hc]
  · rw [if_pos hv]
    exact ⟨rfl, rfl, rfl⟩
  · have hv1 : (s.cache.add_dependency clr k).has_valid k = true := by
      rw [has_valid_add_dependency]
      exact hv
    rw [if_pos hv1]
    refine ⟨?_, add_dependency_values _ _ _, rfl⟩
    show EvalOutcome.ok ((s.cache.add_dependency clr k).get k) = .ok (s.cache.get k)
    rw [get_add_dependency]

theorem readCell_param_miss {K : Type} [DecidableEq K] (defs : K → Option (Expr K))
    (fuel : Nat) (k : K) (s : EvalState K)
    (h : defs k = none) (hv : s.cache.has_valid k = false)
    (hterm : (readCell defs (fuel + 1) k s).1 ≠ .fuelOut) :
    (readCell defs (fuel + 1) k s).1 = .ok none ∧
    alGet (readCell defs (fuel + 1) k s).2.cache.values k = some none ∧
    (readCell defs (fuel + 1) k s).2.log = s.log := by
  simp only [readCell, evalStep, h] at hterm ⊢
  rcases hc : s.cache.caller with _ | clr <;> simp only [hc] at hterm ⊢
  · have hv1 : ¬ s.cache.has_valid k = true := by simp [hv]
    rw [if_neg hv1] at hterm ⊢
    rcases hst : CalculationCache.store s.cache fuel k none with _ | c2 <;>
      simp only [hst] at hterm ⊢
    · exact absurd rfl hterm
    · refine ⟨?_, (store_spec_aux _ _ _ _ _ hst).2.2.1, trivial⟩
      show EvalOutcome.ok (c2.get k) = .ok none
      rw [get_of_alGet _ _ _ (store_spec_aux _ _ _ _ _ hst).2.2.1]
  · have hv1 : ¬ (s.cache.add_dependency clr k).has_valid k = true := by
      simp [has_valid_add_dependency, hv]
    rw [if_neg hv1] at hterm ⊢
    rcases hst : CalculationCache.store (s.cache.add_dependency clr k) fuel k none
      with _ | c2 <;> simp only [hst] at hterm ⊢
    · exact absurd rfl hterm
    · refine ⟨?_, (store_spec_aux _ _ _ _ _ hst).2.2.1, trivial⟩
      show EvalOutcome.ok (c2.get k) = .ok none
      rw [get_of_alGet _ _ _ (store_spec_aux _ _ _ _ _ hst).2.2.1]

/-- Claim C6: a read of a computed cell whose slot is present returns the
cached value without running the derivation (the invocation log does not
grow), and a second read straight after again returns the identical value
with the log still unchanged. -/
theorem valid_computed_read_cached {K : Type} [DecidableEq K]
    (defs : K → Option (Expr K)) (fuel : Nat) (k : K) (e : Expr K) (s : EvalState K)
    (h : defs k = some e) (hv : s.cache.has_valid k = true) :
    (readCell defs (fuel + 1) k s).1 = .ok (s.cache.get k) ∧
    (readCell defs (fuel + 1) k s).2.cache.values = s.cache.values ∧
    (readCell defs (fuel + 1) k s).2.log = s.log ∧
    (readCell defs (fuel + 1) k ((readCell defs (fuel + 1) k s).2)).1 =
      .ok (s.cache.get k) ∧
    (readCell defs (fuel + 1) k ((readCell defs (fuel + 1) k s).2)).2.log = s.log := by
  have H1 := readCell_hit defs fuel k e s h hv
  have hv2 : ((readCell defs (fuel + 1) k s).2).cache.has_valid k = true := by
    simp only [CalculationCache.has_valid, H1.2.1]
    exact hv
  have H2 := readCell_hit defs fuel k e ((readCell defs (fuel + 1) k s).2) h hv2
  have hget2 : ((readCell defs (fuel + 1) k s).2).cache.get k = s.cache.get k := by
    simp only [CalculationCache.get, H1.2.1]
  refine ⟨H1.1, H1.2.1, H1.2.2.2, ?_, ?_⟩
  · rw [H2.1, hget2]
  · rw [H2.2.2.2, H1.2.2.2]

def wit6S : EvalState String := ⟨⟨[("c", some 10)], [], []⟩, []⟩

theorem valid_computed_read_cached_witness :
    (exDefs "c" = some (.mul (.read "a") (.lit 2))) ∧
    (wit6S.cache.has_valid "c" = true) ∧
    ((readCell exDefs 8 "c" wit6S).1 = .ok (some 10) ∧
     (readCell exDefs 8 "c" wit6S).2.cache.values = wit6S.cache.values ∧
     (readCell exDefs 8 "c" wit6S).2.log = wit6S.log ∧
     (readCell exDefs 8 "c" ((readCell exDefs 8 "c" wit6S).2)).1 = .ok (some 10) ∧
     (readCell exDefs 8 "c" ((readCell exDefs 8 "c" wit6S).2)).2.log = wit6S.log) :=
  ⟨rfl, by decide,
   valid_computed_read_cached exDefs 7 "c" (.mul (.read "a") (.lit 2)) wit6S rfl (by decide)⟩

/-- True exactly for the outcomes that model a raised Python exception (the
cyclic-dependency error and the TypeError); running out of budget models
non-termination, not a raise. -/
def isRaise {K : Type} : EvalOutcome K → Bool
  | .cyclic _ => true
  | .typeErr => true
  | _ => false

/-- Claim C8: reading a parameter cell never raises.  Whatever the budget,
the outcome is never an error-raise; if the slot is present the cached value
is returned; if the slot is absent (and the read terminates) the slot is
initialized to the explicit unset placeholder None and that placeholder is
returned. -/
theorem parameter_read_never_raises {K : Type} [DecidableEq K]
    (defs : K → Option (Expr K)) (fuel : Nat) (k : K) (s : EvalState K)
    (h : defs k = none) :
    isRaise (readCell defs fuel k s).1 = false ∧
    (s.cache.has_valid k = true →
      (readCell defs (fuel + 1) k s).1 = .ok (s.cache.get k)) ∧
    (s.cache.has_valid k = false → (readCell defs (fuel + 1) k s).1 ≠ .fuelOut →
      (readCell defs (fuel + 1) k s).1 = .ok none ∧
      (readCell defs (fuel + 1) k s).2.cache.has_valid k = true ∧
      (readCell defs (fuel + 1) k s).2.cache.get k = none) := by
  refine ⟨?_, ?_, ?_⟩
  · match fuel with
    | 0 => rfl
    | n + 1 =>
      simp only [readCell, evalStep, h]
      rcases hc : s.cache.caller with _ | clr <;> simp only [hc]
      · by_cases hv : s.cache.has_valid k
        · rw [if_pos hv]
          rfl
        · rw [if_neg hv]
          rcases hst : CalculationCache.store s.cache n k none with _ | c2 <;>
            simp only [hst] <;> rfl
      · by_cases hv : (s.cache.add_dependency clr k).has_valid k
        · rw [if_pos hv]
          rfl
        · rw [if_neg hv]
          rcases hst : CalculationCache.store (s.cache.add_dependency clr k) n k none
            with _ | c2 <;> simp only [hst] <;> rfl
  · intro hv
    exact (readCell_param_hit defs fuel k s h hv).1
  · intro hv hterm
    have H := readCell_param_miss defs fuel k s h hv hterm
    exact ⟨H.1, has_valid_true_of _ _ _ H.2.1, get_of_alGet _ _ _ H.2.1⟩

theorem parameter_read_never_raises_witness :
    (capDefs2 "p" = none) ∧
    (emptyState.cache.has_valid "p" = false) ∧
    (isRaise (readCell capDefs2 8 "p" emptyState).1 = false) ∧
    ((readCell capDefs2 8 "p" emptyState).1 = .ok none ∧
     (readCell capDefs2 8 "p" emptyState).2.cache.has_valid "p" = true ∧
     (readCell capDefs2 8 "p" emptyState).2.cache.get "p" = none) :=
  ⟨rfl, by decide,
   by
     have H := parameter_read_never_raises capDefs2 8 "p" emptyState rfl
     exact H.1,
   (parameter_read_never_raises capDefs2 7 "p" emptyState rfl).2.2 (by decide) (by decide)⟩

/-- Claim C9: the unset placeholder is Python's None.  With k a parameter
key: a store where k's slot holds None and a store where k's slot is absent
are indistinguishable through the public read interface — get returns None
in both cases and reading yields ok None in both cases — and the first read
of the unset parameter installs None in the slot, making the cell Valid even
though no consumer ever set it. -/
theorem unset_parameter_none_conflation {K : Type} [DecidableEq K]
    (defs : K → Option (Expr K)) (fuel : Nat) (k : K) (s t : EvalState K)
    (h : defs k = none)
    (hsv : alGet s.cache.values k = some none)
    (htv : alGet t.cache.values k = none)
    (hterm : (readCell defs (fuel + 1) k t).1 ≠ .fuelOut) :
    s.cache.get k = none ∧ t.cache.get k = none ∧
    s.cache.has_valid k = true ∧ t.cache.has_valid k = false ∧
    (readCell defs (fuel + 1) k s).1 = .ok none ∧
    (readCell defs (fuel + 1) k t).1 = .ok none ∧
    alGet ((readCell defs (fuel + 1) k t).2).cache.values k = some none := by
  have hsg : s.cache.get k = none := get_of_alGet _ _ _ hsv
  have hsvalid : s.cache.has_valid k = true := has_valid_true_of _ _ _ hsv
  have htvalid : t.cache.has_valid k = false := has_valid_false_of _ _ htv
  have Hs := readCell_param_hit defs fuel k s h hsvalid
  have Ht := readCell_param_miss defs fuel k t h htvalid hterm
  refine ⟨hsg, get_of_absent _ _ htv, hsvalid, htvalid, ?_, Ht.1, Ht.2.1⟩
  rw [Hs.1, hsg]

def noneS : EvalState String := ⟨⟨[("p", none)], [], []⟩, []⟩

theorem unset_parameter_none_conflation_witness :
    (capDefs2 "p" = none) ∧
    (alGet noneS.cache.values "p" = some none) ∧
    (alGet emptyState.cache.values "p" = none) ∧
    (noneS.cache.get "p" = none ∧ emptyState.cache.get "p" = none ∧
     noneS.cache.has_valid "p" = true ∧ emptyState.cache.has_valid "p" = false ∧
     (readCell capDefs2 8 "p" noneS).1 = .ok none ∧
     (readCell capDefs2 8 "p" emptyState).1 = .ok none ∧
     alGet ((readCell capDefs2 8 "p" emptyState).2).cache.values "p" = some none) :=
  ⟨rfl, by decide, by decide,
   unset_parameter_none_conflation capDefs2 7 "p" noneS emptyState rfl
     (by decide) (by decide) (by decide)⟩

/-- Member names of an owner class dictionary are embedded as character
lists (Python 2 strings). -/
abbrev Name := List Char

/-- The kind of an entry in the class dictionary handed to
CachingCalculatorMeta.__new__: a plain function (FunctionType), any other
member, or one of the two property descriptors installed by the metaclass. -/
inductive Member where
  | func : Member
  | other : Member
  | paramProp : Member
  | calcProp : Member
deriving DecidableEq

/-- The fixed derivation-method name marker 'calculate_'. -/
def calcPre : Name := "calculate_".toList

/-- Models name.startswith('calculate_'). -/
def isCalcName (n : Name) : Bool := decide (n.take calcPre.length = calcPre)

/-- Models name[len('calculate_'):] — the derived cell name. -/
def derivedName (n : Name) : Name := n.drop calcPre.length

/-- First loop of CachingCalculatorMeta.__new__: walk the declared
__parameters__ in order; a name already present in the (evolving) class
dictionary is a fatal collision, otherwise a ParameterProperty is installed
under that name. -/
def processParams : List (Name × Member) → List Name → Except Name (List (Name × Member))
  | d, [] => .ok d
  | d, n :: rest =>
    if (alGet d n).isSome then .error n
    else processParams (alInsert d n Member.paramProp) rest

/-- Second loop of CachingCalculatorMeta.__new__: walk a snapshot of the
class dictionary (Python 2 items()); for each plain function named
calculate_X, a member X already present in the evolving dictionary is a
fatal collision, otherwise a CalculatedProperty is installed under X. -/
def processCalcs : List (Name × Member) → List (Name × Member) → Except Name (List (Name × Member))
  | cur, [] => .ok cur
  | cur, p :: rest =>
    if p.2 = Member.func ∧ isCalcName p.1 = true then
      if (alGet cur (derivedName p.1)).isSome then .error (derivedName p.1)
      else processCalcs (alInsert cur (derivedName p.1) Member.calcProp) rest
    else processCalcs cur rest

/-- The name-binding portion of CachingCalculatorMeta.__new__ (the cache
resolution that precedes it is orthogonal to name collisions): install the
parameter properties, then scan the resulting snapshot for derivation
methods and install the calculated properties. -/
def bindClass (d : List (Name × Member)) (params : List Name) :
    Except Name (List (Name × Member)) :=
  match processParams d params with
  | .error n => .error n
  | .ok d1 => processCalcs d1 d1

/-- Whether binding aborted with an InvalidCalculatorSpecification. -/
def isErr {E A : Type} : Except E A → Bool
  | .error _ => true
  | .ok _ => false

theorem calcName_iff (n : Name) : isCalcName n = true ↔ ∃ t, n = calcPre ++ t := by
  constructor
  · intro h
    have h' : n.take calcPre.length = calcPre := of_decide_eq_true h
    refine ⟨n.drop calcPre.length, ?_⟩
    conv_lhs => rw [← List.take_append_drop calcPre.length n]
    rw [h']
  · rintro ⟨t, rfl⟩
    exact decide_eq_true (List.take_left calcPre t)

theorem derivedName_append (t : Name) : derivedName (calcPre ++ t) = t :=
  List.drop_left calcPre t

theorem derived_inj (n1 n2 : Name) (h1 : isCalcName n1 = true)
    (h2 : isCalcName n2 = true) (h : derivedName n1 = derivedName n2) : n1 = n2 := by
  obtain ⟨t1, rfl⟩ := (calcName_iff n1).mp h1
  obtain ⟨t2, rfl⟩ := (calcName_iff n2).mp h2
  rw [derivedName_append, derivedName_append] at h
  rw [h]

theorem processParams_error_iff : ∀ (params : List Name) (d : List (Name × Member)),
    isErr (processParams d params) = true ↔
      ∃ pre n post, params = pre ++ n :: post ∧ ((alGet d n).isSome = true ∨ n ∈ pre) := by
  intro params
  induction params with
  | nil =>
    intro d
    simp only [processParams, isErr]
    constructor
    · intro habs
      simp at habs
    · rintro ⟨pre, n, post, habs, -⟩
      exact absurd habs (by simp)
  | cons n rest ih =>
    intro d
    simp only [processParams]
    by_cases hn : (alGet d n).isSome = true
    · rw [if_pos hn]
      simp only [isErr]
      constructor
      · intro _
        exact ⟨[], n, rest, rfl, Or.inl hn⟩
      · intro _
        trivial
    · rw [if_neg hn, ih (alInsert d n Member.paramProp)]
      constructor
      · rintro ⟨pre, m, post, hsplit, hcond⟩
        refine ⟨n :: pre, m, post, by rw [hsplit]; rfl, ?_⟩
        rcases hcond with hg | hp
        · rw [alGet_alInsert] at hg
          by_cases hmn : m = n
          · exact Or.inr (by simp [hmn])
          · rw [if_neg hmn] at hg
            exact Or.inl hg
        · exact Or.inr (List.mem_cons_of_mem _ hp)
      · rintro ⟨pre, m, post, hsplit, hcond⟩
        match pre, hsplit with
        | [], hsplit =>
          simp only [List.nil_append, List.cons.injEq] at hsplit
          obtain ⟨hnm, hrp⟩ := hsplit
          rcases hcond with hg | hp
          · rw [← hnm] at hg
            exact absurd hg hn
          · simp at hp
        | q :: pre', hsplit =>
          simp only [List.cons_append, List.cons.injEq] at hsplit
          obtain ⟨hq, hrest⟩ := hsplit
          refine ⟨pre', m, post, hrest, ?_⟩
          rcases hcond with hg | hp
          · left
            rw [alGet_alInsert]
            by_cases hmn : m = n
            · simp [hmn]
            · rw [if_neg hmn]
              exact hg
          · rcases List.mem_cons.mp hp with hmq | hp'
            · left
              rw [alGet_alInsert]
              have hmn : m = n := by rw [hmq, ← hq]
              simp [hmn]
            · exact Or.inr hp'

theorem processParams_ok_shape : ∀ (params : List Name) (d d1 : List (Name × Member)),
    processParams d params = .ok d1 →
    d1 = d ++ params.map (fun n => (n, Member.paramProp)) ∧
    (∀ n ∈ params, alGet d n = none) ∧ params.Nodup := by
  intro params
  induction params with
  | nil =>
    intro d d1 h
    simp only [processParams, Except.ok.injEq] at h
    subst h
    simp
  | cons n rest ih =>
    intro d d1 h
    simp only [processParams] at h
    by_cases hn : (alGet d n).isSome = true
    · rw [if_pos hn] at h
      simp at h
    · rw [if_neg hn] at h
      have hnone : alGet d n = none := by
        rcases halt : alGet d n with _ | w
        · rfl
        · rw [halt] at hn
          simp at hn
      obtain ⟨hshape, hfresh, hnd⟩ := ih (alInsert d n Member.paramProp) d1 h
      rw [alInsert_absent d n _ hnone] at hshape
      refine ⟨?_, ?_, ?_⟩
      · rw [hshape]
        simp [List.append_assoc]
      · intro m hm
        rcases List.mem_cons.mp hm with rfl | hm'
        · exact hnone
        · have hm2 := hfresh m hm'
          rw [alInsert_absent d n _ hnone, alGet_append] at hm2
          rcases halt : alGet d m with _ | w
          · rfl
          · rw [halt] at hm2
            simp at hm2
      · rw [List.nodup_cons]
        refine ⟨?_, hnd⟩
        intro hmem
        have hm2 := hfresh n hmem
        rw [alInsert_absent d n _ hnone, alGet_append, hnone] at hm2
        simp [alGet] at hm2

theorem alGet_map_const {A : Type} [DecidableEq Name] :
    ∀ (params : List Name) (x : Name) (m : A),
      alGet (params.map (fun n => (n, m))) x = if x ∈ params then some m else none := by
  intro params x m
  induction params with
  | nil => simp [alGet]
  | cons n rest ih =>
    simp only [List.map_cons, alGet]
    by_cases hx : n = x
    · simp [hx]
    · rw [if_neg hx, ih]
      by_cases hxr : x ∈ rest
      · simp [hxr, List.mem_cons]
      · have hxn : ¬ x = n := fun hh => hx (Eq.symm hh)
        simp [hxr, List.mem_cons, hxn]

theorem alGet_isSome_of_mem {K A : Type} [DecidableEq K] :
    ∀ (l : List (K × A)) (a : K), a ∈ l.map Prod.fst → (alGet l a).isSome = true := by
  intro l
  induction l with
  | nil => intro a ha; simp at ha
  | cons p rest ih =>
    intro a ha
    simp only [List.map_cons, List.mem_cons] at ha
    simp only [alGet]
    by_cases hp : p.1 = a
    · rw [if_pos hp]
      rfl
    · rw [if_neg hp]
      rcases ha with ha | ha
      · exact absurd (Eq.symm ha) hp
      · exact ih a ha

theorem processCalcs_error_iff (base : List (Name × Member)) :
    ∀ (todo : List (Name × Member)) (cur : List (Name × Member)) (added : List Name),
      (∀ x, alGet cur x = if x ∈ added then some Member.calcProp else alGet base x) →
      (∀ p ∈ todo, p.2 = Member.func → isCalcName p.1 = true → derivedName p.1 ∉ added) →
      List.Pairwise (fun p q : Name × Member => p.1 ≠ q.1) todo →
      (isErr (processCalcs cur todo) = true ↔
        ∃ p ∈ todo, p.2 = Member.func ∧ isCalcName p.1 = true ∧
          (alGet base (derivedName p.1)).isSome = true) := by
  intro todo
  induction todo with
  | nil =>
    intro cur added hcur hfresh hpw
    simp only [processCalcs, isErr]
    constructor
    · intro habs
      simp at habs
    · rintro ⟨p, hp, -⟩
      simp at hp
  | cons p rest ih =>
    intro cur added hcur hfresh hpw
    simp only [processCalcs]
    by_cases hp : p.2 = Member.func ∧ isCalcName p.1 = true
    · rw [if_pos hp]
      have hget : alGet cur (derivedName p.1) = alGet base (derivedName p.1) := by
        rw [hcur]
        rw [if_neg (hfresh p (List.mem_cons_self p rest) hp.1 hp.2)]
      by_cases hcol : (alGet cur (derivedName p.1)).isSome = true
      · rw [if_pos hcol]
        simp only [isErr]
        constructor
        · intro _
          exact ⟨p, List.mem_cons_self p rest, hp.1, hp.2, by rw [← hget]; exact hcol⟩
        · intro _
          trivial
      · rw [if_neg hcol]
        have hcur' : ∀ x, alGet (alInsert cur (derivedName p.1) Member.calcProp) x =
            if x ∈ (derivedName p.1 :: added) then some Member.calcProp
            else alGet base x := by
          intro x
          rw [alGet_alInsert]
          by_cases hx : x = derivedName p.1
          · simp [hx, List.mem_cons]
          · rw [if_neg hx, hcur x]
            by_cases hxa : x ∈ added
            · simp [hxa, List.mem_cons]
            · simp [hxa, List.mem_cons, hx]
        have hfresh' : ∀ q ∈ rest, q.2 = Member.func → isCalcName q.1 = true →
            derivedName q.1 ∉ (derivedName p.1 :: added) := by
          intro q hq hqf hqc hmem
          rcases List.mem_cons.mp hmem with heq | hmem'
          · have hq1 := derived_inj q.1 p.1 hqc hp.2 heq
            exact (List.pairwise_cons.mp hpw).1 q hq hq1.symm
          · exact hfresh q (List.mem_cons_of_mem _ hq) hqf hqc hmem'
        rw [ih _ _ hcur' hfresh' (List.pairwise_cons.mp hpw).2]
        constructor
        · rintro ⟨q, hq, hc⟩
          exact ⟨q, List.mem_cons_of_mem _ hq, hc⟩
        · rintro ⟨q, hq, hqf, hqc, hqs⟩
          rcases List.mem_cons.mp hq with rfl | hq'
          · exact absurd (by rw [hget]; exact hqs) hcol
          · exact ⟨q, hq', hqf, hqc, hqs⟩
    · rw [if_neg hp]
      rw [ih cur added hcur
        (fun q hq => hfresh q (List.mem_cons_of_mem _ hq)) (List.pairwise_cons.mp hpw).2]
      constructor
      · rintro ⟨q, hq, hc⟩
        exact ⟨q, List.mem_cons_of_mem _ hq, hc⟩
      · rintro ⟨q, hq, hqf, hqc, hqs⟩
        rcases List.mem_cons.mp hq with rfl | hq'
        · exact absurd ⟨hqf, hqc⟩ hp
        · exact ⟨q, hq', hqf, hqc, hqs⟩

/-- Claim C7: class binding raises (and the owner type is not built) exactly
when a declared parameter name collides with a member already present when
it is processed (an original member or an earlier declared parameter), or a
derivation method's derived cell name collides with an existing member — an
original member or a declared parameter.  `hnd` is the Python dict
invariant: the incoming class dictionary has distinct keys. -/
theorem binding_collision_error_iff (d : List (Name × Member)) (params : List Name)
    (hnd : (d.map Prod.fst).Nodup) :
    isErr (bindClass d params) = true ↔
      ((∃ pre n post, params = pre ++ n :: post ∧
          ((alGet d n).isSome = true ∨ n ∈ pre)) ∨
       (∃ p ∈ d, p.2 = Member.func ∧ isCalcName p.1 = true ∧
          ((alGet d (derivedName p.1)).isSome = true ∨ derivedName p.1 ∈ params))) := by
  simp only [bindClass]
  cases hpp : processParams d params with
  | error n0 =>
    have hP := (processParams_error_iff params d).mp (by rw [hpp]; rfl)
    simp only [isErr]
    constructor
    · intro _
      exact Or.inl hP
    · intro _
      trivial
  | ok d1 =>
    have hnP : ¬ (∃ pre n post, params = pre ++ n :: post ∧
        ((alGet d n).isSome = true ∨ n ∈ pre)) := by
      rw [← processParams_error_iff params d, hpp]
      simp [isErr]
    obtain ⟨hshape, hfresh0, hndp⟩ := processParams_ok_shape params d d1 hpp
    have hd1some : ∀ x, (alGet d1 x).isSome = true ↔
        ((alGet d x).isSome = true ∨ x ∈ params) := by
      intro x
      rw [hshape, alGet_append, alGet_map_const]
      rcases halt : alGet d x with _ | w
      · by_cases hx : x ∈ params <;> simp [hx]
      · simp
    have hfuncs : ∀ p : Name × Member, p ∈ d1 → p.2 = Member.func → p ∈ d := by
      intro p hm hf
      rw [hshape] at hm
      rcases List.mem_append.mp hm with hm' | hm'
      · exact hm'
      · obtain ⟨n, hn, heq⟩ := List.mem_map.mp hm'
        rw [← heq] at hf
        simp at hf
    have hnames : d1.map Prod.fst = d.map Prod.fst ++ params := by
      rw [hshape, List.map_append, List.map_map]
      rw [show (Prod.fst ∘ fun n : Name => (n, Member.paramProp)) = id from rfl,
        List.map_id]
    have hnd1 : (d1.map Prod.fst).Nodup := by
      rw [hnames, List.nodup_append]
      refine ⟨hnd, hndp, ?_⟩
      intro a ha hb
      have := hfresh0 a hb
      have hsome := alGet_isSome_of_mem d a ha
      rw [this] at hsome
      simp at hsome
    have hpw : List.Pairwise (fun p q : Name × Member => p.1 ≠ q.1) d1 :=
      List.pairwise_map.mp hnd1
    rw [processCalcs_error_iff d1 d1 d1 []
      (by intro x; simp) (by intro p hp h1 h2; simp) hpw]
    constructor
    · rintro ⟨p, hp, hf, hcalc, hsome⟩
      exact Or.inr ⟨p, hfuncs p hp hf, hf, hcalc, (hd1some _).mp hsome⟩
    · intro h
      rcases h with hP | ⟨p, hp, hf, hcalc, hQ⟩
      · exact absurd hP hnP
      · refine ⟨p, ?_, hf, hcalc, (hd1some _).mpr hQ⟩
        rw [hshape]
        exact List.mem_append_left _ hp

def bindD0 : List (Name × Member) :=
  [("__parameters__".toList, Member.other), ("calculate_c".toList, Member.func),
   ("__init__".toList, Member.func)]

def bindP0 : List Name := ["a".toList, "b".toList]

def bindD1 : List (Name × Member) :=
  [("c".toList, Member.other), ("calculate_c".toList, Member.func)]

theorem binding_collision_error_iff_witness :
    ((bindD0.map Prod.fst).Nodup) ∧
    (isErr (bindClass bindD0 bindP0) = true ↔
      ((∃ pre n post, bindP0 = pre ++ n :: post ∧
          ((alGet bindD0 n).isSome = true ∨ n ∈ pre)) ∨
       (∃ p ∈ bindD0, p.2 = Member.func ∧ isCalcName p.1 = true ∧
          ((alGet bindD0 (derivedName p.1)).isSome = true ∨ derivedName p.1 ∈ bindP0)))) ∧
    ((bindD1.map Prod.fst).Nodup) ∧
    (isErr (bindClass bindD1 bindP0) = true ↔
      ((∃ pre n post, bindP0 = pre ++ n :: post ∧
          ((alGet bindD1 n).isSome = true ∨ n ∈ pre)) ∨
       (∃ p ∈ bindD1, p.2 = Member.func ∧ isCalcName p.1 = true ∧
          ((alGet bindD1 (derivedName p.1)).isSome = true ∨ derivedName p.1 ∈ bindP0)))) :=
  ⟨by decide, binding_collision_error_iff bindD0 bindP0 (by decide),
   by decide, binding_collision_error_iff bindD1 bindP0 (by decide)⟩
